import Mathlib

/-!
Verification of the write-back cache core in `wbcache/lookup_container.py`.

The Python code is shallowly embedded: Django-style model instances become
`Record` values living in an explicit heap (a list indexed by position, so
that object identity and in-place `pk` mutation are observable), the
`dict`/`defaultdict` bucket maps become insertion-ordered association lists,
`sortedcontainers.SortedSet` buckets and Python's stable `list.sort` become
an insertion sort that is stable for equal keys, and calls to the backing
store (`obj.save()` / `obj.delete()`) are recorded as an effect trace.
Failures raised via `util.validate` / `util.fail` / `KeyError` become
`Except` results.
-/

/-- Attribute / primary-key values.  `Value.none` is Python's `None`;
`Value.transient tid` is a `UniqueTransientValue` allocation (equal only to
the allocation with the same id, mirroring identity-based `__eq__`). -/
inductive Value where
  | none
  | int (n : Int)
  | str (s : String)
  | transient (tid : Nat)
deriving DecidableEq, Repr

/-- Is this value a `UniqueTransientValue` (`isinstance(. , UniqueTransientValue)`)? -/
def Value.isTransient : Value → Bool
  | Value.transient _ => true
  | _ => false

/-- A Django-style model instance: a primary key plus named attribute fields. -/
structure Record where
  pk : Value
  attrs : List (String × Value)
deriving DecidableEq, Repr

/-- The heap of live record objects; records are referred to by position
(`rid`), mirroring Python object references, so aliasing and in-place
mutation are visible. -/
abbrev Heap := List Record

/-- Dereference a record id. -/
def recAt (h : Heap) (rid : Nat) : Record :=
  h.getD rid ⟨Value.none, []⟩

/-- `getattr(elem, k)`: the `pk` field or a named attribute. -/
def Record.getattr (r : Record) (k : String) : Value :=
  if k = "pk" then r.pk
  else (((r.attrs.find? (fun p => decide (p.1 = k))).map Prod.snd).getD Value.none)

/-- Overwrite the `pk` field of the record `rid` in place. -/
def setPk (h : Heap) (rid : Nat) (v : Value) : Heap :=
  h.set rid { recAt h rid with pk := v }

/-- Django model equality (checked against Django 3.1, as the source's
docstring describes): an instance with `pk is None` equals only itself;
otherwise equality compares `pk` values (`UniqueTransientValue` compares by
allocation identity, which `Value.transient` ids capture). -/
def recEq (h : Heap) (a b : Nat) : Bool :=
  if a = b then true
  else if (recAt h a).pk = Value.none then false
  else decide ((recAt h a).pk = (recAt h b).pk)

/-! ## Lookup parameters (`**parameters` keyword mappings) -/

/-- A `**parameters` mapping: attribute name to value. -/
abbrev Params := List (String × Value)

/-- `parameters[k]` as an option (a missing key raises `KeyError`). -/
def lookupParam : Params → String → Option Value
  | [], _ => Option.none
  | p :: ps, k => if p.1 = k then some p.2 else lookupParam ps k

/-- `tuple([parameters[k] for k in key_attributes])`, with `KeyError`
surfacing as `Option.none`. -/
def getParams (ps : Params) : List String → Option (List Value)
  | [] => some []
  | k :: ks =>
    match lookupParam ps k, getParams ps ks with
    | some v, some vs => some (v :: vs)
    | _, _ => Option.none

/-! ## Lookup result codes (`LookupContainer` class constants) -/

def LOOKUP_NOT_SUPPORTED : Nat := 0
def VALUE_UNKNOWN : Nat := 1
def VALUE_DOES_NOT_EXIST : Nat := 2
def VALUE_FOUND : Nat := 3

/-! ## List helpers: Python list/sorted-container operations -/

/-- Insert `x` into `l` keeping `l`'s order, after every element whose sort
key is `≤ key x` — the insertion step of a stable sort, and also the
position `SortedList.add` (bisect-right) uses. -/
def insortBy (key : α → Int) (x : α) : List α → List α
  | [] => [x]
  | y :: ys => if key y ≤ key x then y :: insortBy key x ys else x :: y :: ys

/-- Stable sort by `key`, as Python's `list.sort(key=...)` (Timsort is
stable, and every stable sort yields the same output). -/
def ssortBy (key : α → Int) (l : List α) : List α :=
  l.foldl (fun acc x => insortBy key x acc) []

/-- Remove the first element satisfying `p`; leave the list unchanged when
none does (like `list.remove` under a `try`/`except ValueError: pass`, or
`set.discard`). -/
def removeFirstBy (p : α → Bool) : List α → List α
  | [] => []
  | y :: ys => if p y then ys else y :: removeFirstBy p ys

/-- `d[key]` mutation on an insertion-ordered Python dict used as a
`defaultdict`: apply `f` to the existing bucket, or to the default `dflt`
appending a fresh entry at the end (dicts preserve insertion order). -/
def updAssoc [DecidableEq κ] (k : κ) (f : β → β) (dflt : β) : List (κ × β) → List (κ × β)
  | [] => [(k, f dflt)]
  | (k', b) :: t => if k' = k then (k', f b) :: t else (k', b) :: updAssoc k f dflt t

/-- The bucket stored for key `k` (empty when absent). -/
def bucketAt [DecidableEq κ] : List (κ × List β) → κ → List β
  | [], _ => []
  | p :: t, k => if p.1 = k then p.2 else bucketAt t k

/-- `key in d` on a Python dict. -/
def hasKey [DecidableEq κ] : List (κ × β) → κ → Bool
  | [], _ => false
  | p :: t, k => if p.1 = k then true else hasKey t k

/-! ## `ListLookup`: dict of `sortedcontainers.SortedSet(key=sort_key)` buckets -/

/-- `ListLookup(key_attributes, sort_key)`.  `canAuth` models the virtual
`can_answer_authoritatively` method (the base class returns `False`;
subclasses may override). -/
structure ListLookup where
  key_attributes : List String
  sort_key : Record → Int
  canAuth : Params → Bool
  buckets : List (List Value × List Nat)

/-- `self._key(elem)`: the tuple of the record's key-attribute values. -/
def ListLookup.key (s : ListLookup) (h : Heap) (rid : Nat) : List Value :=
  s.key_attributes.map (fun k => (recAt h rid).getattr k)

/-- `ListLookup.add`: `self._index[key].discard(elem)` (drop the
record-equal member, if any) then `self._index[key].add(elem)` (insert at
the sort-key position).  The `defaultdict` creates the bucket if missing. -/
def ListLookup.add (h : Heap) (s : ListLookup) (rid : Nat) : ListLookup :=
  let k := s.key h rid
  let f := fun b => insortBy (fun r => s.sort_key (recAt h r)) rid
    (removeFirstBy (fun e => recEq h e rid) b)
  { s with buckets := updAssoc k f [] s.buckets }

/-- `ListLookup.bulk_add`: `self._index[key].add(item)` per item —
`SortedSet.add` is a no-op when a set-equal member is already present. -/
def ListLookup.bulk_add (h : Heap) (s : ListLookup) (items : List Nat) : ListLookup :=
  items.foldl (fun s' rid =>
    let k := s'.key h rid
    let f := fun b => if b.any (fun e => recEq h e rid) then b
      else insortBy (fun r => s'.sort_key (recAt h r)) rid b
    { s' with buckets := updAssoc k f [] s'.buckets }) s

/-- `ListLookup.clear`. -/
def ListLookup.clear (s : ListLookup) : ListLookup :=
  { s with buckets := [] }

/-- `ListLookup.delete`: `util.validate(key in self._index, 'ERROR 934923432')`,
then `SortedSet.remove(elem)`, which raises `KeyError` when no set-equal
member exists. -/
def ListLookup.delete (h : Heap) (s : ListLookup) (rid : Nat) : Except String ListLookup :=
  let k := s.key h rid
  let bs := updAssoc k (removeFirstBy (fun e => recEq h e rid)) [] s.buckets
  if hasKey s.buckets k then
    if (bucketAt s.buckets k).any (fun e => recEq h e rid) then
      Except.ok { s with buckets := bs }
    else Except.error "KeyError"
  else Except.error "ERROR 934923432"

/-- `ListLookup.__len__`: the number of keys in the dict. -/
def ListLookup.len (s : ListLookup) : Nat :=
  s.buckets.length

/-- `ListLookup.lookup`: parameter-count check, key construction
(`KeyError` → `LOOKUP_NOT_SUPPORTED`), then `key in self._index and
self._index[key]` — the membership test comes first, so this lookup never
inserts a bucket. -/
def ListLookup.lookup (s : ListLookup) (ps : Params) : Nat × Option (List Nat) :=
  if ps.length ≠ s.key_attributes.length then (LOOKUP_NOT_SUPPORTED, Option.none)
  else
    match getParams ps s.key_attributes with
    | Option.none => (LOOKUP_NOT_SUPPORTED, Option.none)
    | some k =>
      if hasKey s.buckets k ∧ bucketAt s.buckets k ≠ [] then
        (VALUE_FOUND, some (bucketAt s.buckets k))
      else if s.canAuth ps then (VALUE_DOES_NOT_EXIST, Option.none)
      else (VALUE_UNKNOWN, Option.none)

/-! ## `DefaultListLookup`: `defaultdict(list)` buckets, re-sorted on `add` -/

/-- `DefaultListLookup(key_attributes, sort_key)`. -/
structure DefaultListLookup where
  key_attributes : List String
  sort_key : Record → Int
  canAuth : Params → Bool
  buckets : List (List Value × List Nat)

/-- `self._key(elem)`. -/
def DefaultListLookup.key (s : DefaultListLookup) (h : Heap) (rid : Nat) : List Value :=
  s.key_attributes.map (fun k => (recAt h rid).getattr k)

/-- `DefaultListLookup.add`: `self._index[key].remove(elem)` under
`try/except ValueError` (drop the first record-equal element, if any),
`append(elem)`, then `sort(key=self._sort_key)` (stable). -/
def DefaultListLookup.add (h : Heap) (s : DefaultListLookup) (rid : Nat) : DefaultListLookup :=
  let k := s.key h rid
  let f := fun b => ssortBy (fun r => s.sort_key (recAt h r))
    (removeFirstBy (fun e => recEq h e rid) b ++ [rid])
  { s with buckets := updAssoc k f [] s.buckets }

/-- `DefaultListLookup.bulk_add`: on an empty index, append every item into
its bucket and sort each bucket once at the end; otherwise fall back to
per-item `add`. -/
def DefaultListLookup.bulk_add (h : Heap) (s : DefaultListLookup) (items : List Nat) :
    DefaultListLookup :=
  if s.buckets.length = 0 then
    let s1 := items.foldl (fun s' rid =>
      { s' with buckets := updAssoc (s'.key h rid) (fun b => b ++ [rid]) [] s'.buckets }) s
    let bs := s1.buckets.map (fun p => (p.1, ssortBy (fun r => s1.sort_key (recAt h r)) p.2))
    { s1 with buckets := bs }
  else
    items.foldl (fun s' rid => s'.add h rid) s

/-- `DefaultListLookup.clear`. -/
def DefaultListLookup.clear (s : DefaultListLookup) : DefaultListLookup :=
  { s with buckets := [] }

/-- `DefaultListLookup.delete`: `util.validate(key in self._index, 'ERROR
934923432')`, then `self._index[key] = [e for e in self._index[key] if e !=
elem]` — filtering, which succeeds even when nothing matches. -/
def DefaultListLookup.delete (h : Heap) (s : DefaultListLookup) (rid : Nat) :
    Except String DefaultListLookup :=
  let k := s.key h rid
  let bs := updAssoc k (fun b => b.filter (fun e => ! recEq h e rid)) [] s.buckets
  if hasKey s.buckets k then
    Except.ok { s with buckets := bs }
  else Except.error "ERROR 934923432"

/-- `DefaultListLookup.__len__`: the number of keys in the dict. -/
def DefaultListLookup.len (s : DefaultListLookup) : Nat :=
  s.buckets.length

/-- `DefaultListLookup.lookup`: parameter checks as in `ListLookup.lookup`,
but the truthiness test `if self._index[key]:` goes through the
`defaultdict`, inserting an empty bucket when the key is absent — so this
lookup returns the (possibly grown) container state as well. -/
def DefaultListLookup.lookup (s : DefaultListLookup) (ps : Params) :
    (Nat × Option (List Nat)) × DefaultListLookup :=
  if ps.length ≠ s.key_attributes.length then ((LOOKUP_NOT_SUPPORTED, Option.none), s)
  else
    match getParams ps s.key_attributes with
    | Option.none => ((LOOKUP_NOT_SUPPORTED, Option.none), s)
    | some k =>
      let bs := if hasKey s.buckets k then s.buckets else s.buckets ++ [(k, [])]
      let s1 := { s with buckets := bs }
      if bucketAt s1.buckets k ≠ [] then
        ((VALUE_FOUND, some (bucketAt s1.buckets k)), s1)
      else if s.canAuth ps then ((VALUE_DOES_NOT_EXIST, Option.none), s1)
      else ((VALUE_UNKNOWN, Option.none), s1)

/-! ## `CompositeLookup.lookup` -/

/-- A member index of a `CompositeLookup`, abstracted by its `lookup`
behaviour (result code and payload for given parameters). -/
abbrev MemberLookup := Params → Nat × Option (List Nat)

/-- The loop body of `CompositeLookup.lookup`: walk the member indexes in
configured order carrying `retcode`; a member answering `VALUE_FOUND` or
`VALUE_DOES_NOT_EXIST` is returned at once ("got a certain result"),
otherwise `retcode = max(retcode, new_retcode)` and the loop continues,
ending with `(retcode, None)`. -/
def compositeLookupLoop (ps : Params) (retcode : Nat) :
    List MemberLookup → Nat × Option (List Nat)
  | [] => (retcode, Option.none)
  | idx :: idxs =>
    let r := idx ps
    if r.1 = VALUE_FOUND ∨ r.1 = VALUE_DOES_NOT_EXIST then r
    else compositeLookupLoop ps (max retcode r.1) idxs

/-- `CompositeLookup.lookup`: the loop started with
`retcode = LOOKUP_NOT_SUPPORTED`. -/
def CompositeLookup.lookup (idxs : List MemberLookup) (ps : Params) :
    Nat × Option (List Nat) :=
  compositeLookupLoop ps LOOKUP_NOT_SUPPORTED idxs

/-! ## Change records and the `ChangeLog` -/

/-- A `DjangoModelChange`: a `SaveOp` (`change_type = 'save'`; the
`save_kwargs` of the cache's own `SaveOp(elem)` calls are always empty and
are omitted) or a `DeleteOp` (`change_type = 'delete'`), holding the model
object by reference and the `Sequence` value drawn at construction. -/
structure ChangeRec where
  isDelete : Bool
  rid : Nat
  change_counter : Nat
deriving DecidableEq, Repr

/-- The `ChangeLog`'s `_index`: a `ListLookup` dict specialized to
`key_attributes=['pk']` (the one-element key tuple is flattened to the pk
value) and `sort_key=attrgetter('change_counter')`, whose buckets hold
change records. -/
abbrev ChangeLogState := List (Value × List ChangeRec)

/-- `ChangeLog.add`: `util.validate(isinstance(change, DjangoModelChange))`
(always satisfied here), then `ListLookup.add`: key the change by
`change.pk` (= `change.obj.pk`, read now), `discard` any equal member and
insert at the `change_counter` position.  Distinct change objects are never
Python-equal; value equality coincides because `Sequence` counters are
unique. -/
def ChangeLog.add (h : Heap) (log : ChangeLogState) (c : ChangeRec) : ChangeLogState :=
  let k := (recAt h c.rid).pk
  let f := fun b => insortBy (fun x => (x.change_counter : Int)) c
    (removeFirstBy (fun e => e = c) b)
  updAssoc k f [] log

/-- `ChangeLog.__len__` (inherited `ListLookup.__len__`): the number of pk
keys in the dict. -/
def ChangeLog.len (log : ChangeLogState) : Nat :=
  log.length

/-- The list of changes `ChangeLog.apply_all` applies, in order: the last
(highest-counter) change of each non-empty pk bucket, gathered in dict
insertion order, then stably sorted by `change_counter` ascending. -/
def ChangeLog.apply_all_order (log : ChangeLogState) : List ChangeRec :=
  ssortBy (fun c => (c.change_counter : Int))
    (log.filterMap (fun p => p.2.getLast?))

/-! ## The backing store (Django ORM) -/

/-- One backing-store call made by a change record's `apply_change`:
`obj.save(...)` or `obj.delete()` on the record `rid`. -/
inductive StoreEffect where
  | save (rid : Nat)
  | deleteRec (rid : Nat)
deriving DecidableEq, Repr

/-- Django's `Model.save()` as the cache relies on it: persists the record
and, when `pk` is `None`, assigns the next store identity. -/
def djangoSave (h : Heap) (nextPk : Nat) (rid : Nat) : Heap × Nat :=
  if (recAt h rid).pk = Value.none then (setPk h rid (Value.int nextPk), nextPk + 1)
  else (h, nextPk)

/-- `apply_change` of a change record, returning the mutated heap, the
store's next identity, and the backing-store calls made.

`DeleteOp.apply_change`: when `self.obj.pk is None` this is a pass
("object was created and then deleted before it was ever written to
database"); otherwise the code calls `self.obj.save()` — note: a *save*,
and a pk holding an `UniqueTransientValue` placeholder is not `None`.

`SaveOp.apply_change`: a transient placeholder pk is first reset to `None`
("real pk value will be assigned on save()"), then `self.obj.save()`. -/
def applyChange (c : ChangeRec) (h : Heap) (nextPk : Nat) :
    Heap × Nat × List StoreEffect :=
  if c.isDelete then
    if (recAt h c.rid).pk = Value.none then (h, nextPk, [])
    else
      let p := djangoSave h nextPk c.rid
      (p.1, p.2, [StoreEffect.save c.rid])
  else
    let h1 := if ((recAt h c.rid).pk).isTransient then setPk h c.rid Value.none else h
    let p := djangoSave h1 nextPk c.rid
    (p.1, p.2, [StoreEffect.save c.rid])

/-- `ChangeLog.apply_all`: apply the resolved changes (latest per identity,
in ascending counter order) one after the other. -/
def ChangeLog.apply_all (log : ChangeLogState) (h : Heap) (nextPk : Nat) :
    Heap × Nat × List StoreEffect :=
  (ChangeLog.apply_all_order log).foldl
    (fun acc c =>
      let r := applyChange c acc.1 acc.2.1
      (r.1, r.2.1, acc.2.2 ++ r.2.2))
    (h, nextPk, [])

/-! ## `InProcessWriteBackCache` -/

/-- The write-back cache state: the record heap, the configured
`DefaultListLookup` indexes (`CompositeLookup.indexes`), the `ChangeLog`,
the shared `Sequence` counter backing `DjangoModelChange`, the allocator
for `UniqueTransientValue` ids, the backing store's next identity, and the
trace of backing-store calls made so far. -/
structure InProcessWriteBackCache where
  heap : Heap
  indexes : List DefaultListLookup
  change_log : ChangeLogState
  counter : Nat
  ntrans : Nat
  nextPk : Nat
  effects : List StoreEffect

/-- `InProcessWriteBackCache.add`: build `op = SaveOp(elem)` (drawing the
next counter), then — if `is_cacheable(elem)` — assign a fresh
`UniqueTransientValue` to a `None` pk, `CompositeLookup.add` to every
index, and `ChangeLog.add(op)`; otherwise `op.apply_change()` goes straight
to the store. -/
def InProcessWriteBackCache.add (cacheable : Record → Bool)
    (s : InProcessWriteBackCache) (rid : Nat) : InProcessWriteBackCache :=
  let cnt := s.counter + 1
  let op : ChangeRec := ⟨false, rid, cnt⟩
  if cacheable (recAt s.heap rid) then
    let assign := (recAt s.heap rid).pk = Value.none
    let h1 := if assign then setPk s.heap rid (Value.transient s.ntrans) else s.heap
    let nt1 := if assign then s.ntrans + 1 else s.ntrans
    { s with
      heap := h1
      indexes := s.indexes.map (fun d => d.add h1 rid)
      change_log := ChangeLog.add h1 s.change_log op
      counter := cnt
      ntrans := nt1 }
  else
    let r := applyChange op s.heap s.nextPk
    { s with heap := r.1, nextPk := r.2.1, effects := s.effects ++ r.2.2, counter := cnt }

/-- `CompositeLookup.delete`: broadcast to every member index; a member's
failure propagates (the loop in Python would leave earlier members already
mutated — a run containing a failing delete is simply aborted here). -/
def CompositeLookup.deleteAll (h : Heap) :
    List DefaultListLookup → Nat → Except String (List DefaultListLookup)
  | [], _ => Except.ok []
  | d :: ds, rid =>
    match d.delete h rid with
    | Except.error e => Except.error e
    | Except.ok d' =>
      match CompositeLookup.deleteAll h ds rid with
      | Except.error e => Except.error e
      | Except.ok ds' => Except.ok (d' :: ds')

/-- `InProcessWriteBackCache.delete`: build `op = DeleteOp(elem)`, then —
if cacheable — `CompositeLookup.delete` from every index and
`ChangeLog.add(op)`; otherwise `op.apply_change()` directly. -/
def InProcessWriteBackCache.delete (cacheable : Record → Bool)
    (s : InProcessWriteBackCache) (rid : Nat) :
    Except String InProcessWriteBackCache :=
  let cnt := s.counter + 1
  let op : ChangeRec := ⟨true, rid, cnt⟩
  if cacheable (recAt s.heap rid) then
    match CompositeLookup.deleteAll s.heap s.indexes rid with
    | Except.error e => Except.error e
    | Except.ok idxs =>
      Except.ok { s with
        indexes := idxs
        change_log := ChangeLog.add s.heap s.change_log op
        counter := cnt }
  else
    let r := applyChange op s.heap s.nextPk
    Except.ok { s with
      heap := r.1, nextPk := r.2.1, effects := s.effects ++ r.2.2, counter := cnt }

/-- `flush_changes_to_database`: `self.change_log.apply_all()` then
`self.change_log.clear()` — the indexes are left untouched. -/
def InProcessWriteBackCache.flush_changes_to_database
    (s : InProcessWriteBackCache) : InProcessWriteBackCache :=
  let r := ChangeLog.apply_all s.change_log s.heap s.nextPk
  { s with heap := r.1, nextPk := r.2.1, effects := s.effects ++ r.2.2, change_log := [] }

/-- `InProcessWriteBackCache.clear(force)`: first `super().clear()` empties
every member index; then, unless forced, `util.validate_equals(0,
len(self.change_log))` fails loudly on a non-empty log — leaving the log
as it was; only on success is the log cleared too.  Returns the state the
cache object is left in together with the success/failure outcome. -/
def InProcessWriteBackCache.clear (s : InProcessWriteBackCache) (force : Bool) :
    InProcessWriteBackCache × Except String Unit :=
  let s1 := { s with indexes := s.indexes.map DefaultListLookup.clear }
  if force = false ∧ ChangeLog.len s.change_log ≠ 0 then
    (s1, Except.error "validate_equals 0 len change_log")
  else
    ({ s1 with change_log := [] }, Except.ok ())

/-! ## Driving the cache: operation sequences and reachable states -/

/-- One caller-visible cache mutation. -/
inductive CacheOp where
  | add (rid : Nat)
  | del (rid : Nat)
  | flush
deriving DecidableEq, Repr

/-- Execute one operation; `Option.none` when the operation raises (or the
record reference is invalid). -/
def InProcessWriteBackCache.step (cacheable : Record → Bool)
    (s : InProcessWriteBackCache) : CacheOp → Option InProcessWriteBackCache
  | CacheOp.add rid =>
    if rid < s.heap.length then some (s.add cacheable rid) else Option.none
  | CacheOp.del rid =>
    if rid < s.heap.length then
      match s.delete cacheable rid with
      | Except.ok s' => some s'
      | Except.error _ => Option.none
    else Option.none
  | CacheOp.flush => some s.flush_changes_to_database

/-- Run a sequence of operations. -/
def InProcessWriteBackCache.run (cacheable : Record → Bool)
    (s : InProcessWriteBackCache) : List CacheOp → Option InProcessWriteBackCache
  | [] => some s
  | op :: ops =>
    match s.step cacheable op with
    | some s' => InProcessWriteBackCache.run cacheable s' ops
    | Option.none => Option.none

/-- Instrumented run: alongside the cache state, track the pk keys under
which a change record has been appended to the `ChangeLog` since the last
flush (reset when the log is cleared).  The cache component evolves exactly
by `step`. -/
def InProcessWriteBackCache.runG (cacheable : Record → Bool)
    (p : InProcessWriteBackCache × List Value) :
    List CacheOp → Option (InProcessWriteBackCache × List Value)
  | [] => some p
  | op :: ops =>
    match p.1.step cacheable op with
    | Option.none => Option.none
    | some s' =>
      let g' :=
        match op with
        | CacheOp.flush => []
        | CacheOp.add rid =>
          if cacheable (recAt p.1.heap rid) then p.2 ++ [(recAt s'.heap rid).pk] else p.2
        | CacheOp.del rid =>
          if cacheable (recAt p.1.heap rid) then p.2 ++ [(recAt p.1.heap rid).pk] else p.2
      InProcessWriteBackCache.runG cacheable (s', g') ops

/-! ## Lemmas about the list primitives -/

theorem insortBy_ne_nil (key : α → Int) (x : α) (l : List α) :
    insortBy key x l ≠ [] := by
  cases l with
  | nil => exact List.cons_ne_nil _ _
  | cons y ys =>
    simp only [insortBy]
    split
    · exact List.cons_ne_nil _ _
    · exact List.cons_ne_nil _ _

theorem mem_insortBy (key : α → Int) (x a : α) (l : List α) :
    a ∈ insortBy key x l ↔ a = x ∨ a ∈ l := by
  induction l with
  | nil => simp [insortBy]
  | cons y ys ih =>
    simp only [insortBy]
    split
    all_goals simp only [List.mem_cons, ih]
    all_goals try tauto

theorem insortBy_perm (key : α → Int) (x : α) (l : List α) :
    (insortBy key x l).Perm (x :: l) := by
  induction l with
  | nil => simp [insortBy]
  | cons y ys ih =>
    simp only [insortBy]
    split
    · exact ((ih.cons y).trans (List.Perm.swap x y ys))
    · exact List.Perm.refl _

theorem insortBy_sorted (key : α → Int) (x : α) (l : List α)
    (hs : l.Pairwise (fun a b => key a ≤ key b)) :
    (insortBy key x l).Pairwise (fun a b => key a ≤ key b) := by
  induction l with
  | nil => simp [insortBy]
  | cons y ys ih =>
    rw [List.pairwise_cons] at hs
    simp only [insortBy]
    split
    · rw [List.pairwise_cons]
      refine ⟨fun z hz => ?_, ih hs.2⟩
      rcases (mem_insortBy key x z ys).1 hz with rfl | hz
      · assumption
      · exact hs.1 z hz
    · rw [List.pairwise_cons]
      refine ⟨fun z hz => ?_, List.pairwise_cons.2 hs⟩
      rcases List.mem_cons.1 hz with rfl | hz
      · omega
      · exact le_trans (by omega) (hs.1 z hz)

theorem foldl_insort_perm (key : α → Int) (l acc : List α) :
    (l.foldl (fun a x => insortBy key x a) acc).Perm (acc ++ l) := by
  induction l generalizing acc with
  | nil => simp
  | cons y ys ih =>
    simp only [List.foldl_cons]
    refine (ih (insortBy key y acc)).trans ?_
    refine (List.Perm.append_right ys (insortBy_perm key y acc)).trans ?_
    exact List.perm_middle.symm

theorem ssortBy_perm (key : α → Int) (l : List α) : (ssortBy key l).Perm l := by
  simpa [ssortBy] using foldl_insort_perm key l []

theorem mem_ssortBy (key : α → Int) (a : α) (l : List α) :
    a ∈ ssortBy key l ↔ a ∈ l :=
  (ssortBy_perm key l).mem_iff

theorem ssortBy_sorted (key : α → Int) (l : List α) :
    (ssortBy key l).Pairwise (fun a b => key a ≤ key b) := by
  suffices h : ∀ acc, acc.Pairwise (fun a b => key a ≤ key b) →
      (l.foldl (fun a x => insortBy key x a) acc).Pairwise (fun a b => key a ≤ key b) by
    exact h [] (by simp)
  induction l with
  | nil => intro acc hacc; simpa using hacc
  | cons y ys ih =>
    intro acc hacc
    exact ih (insortBy key y acc) (insortBy_sorted key y acc hacc)

theorem sorted_getLast?_max (key : α → Int) :
    ∀ (l : List α) (m : α), l.Pairwise (fun a b => key a ≤ key b) →
      l.getLast? = some m → ∀ x ∈ l, key x ≤ key m
  | [], m, _, hm => by simp at hm
  | [y], m, _, hm => by
    intro x hx
    simp only [List.getLast?_singleton, Option.some.injEq] at hm
    rcases List.mem_singleton.1 hx with rfl
    exact hm ▸ le_refl _
  | y :: z :: zs, m, hs, hm => by
    rw [List.pairwise_cons] at hs
    rw [List.getLast?_cons_cons] at hm
    intro x hx
    have hmem : m ∈ z :: zs := by
      have := List.mem_getLast?_eq_getLast (l := z :: zs) (x := m) (by simpa using hm)
      rcases this with ⟨hne, rfl⟩
      exact List.getLast_mem hne
    rcases List.mem_cons.1 hx with rfl | hx
    · exact hs.1 m hmem
    · exact sorted_getLast?_max key (z :: zs) m hs.2 hm x hx

theorem removeFirstBy_eq_self (p : α → Bool) (l : List α)
    (h : ∀ e ∈ l, p e = false) : removeFirstBy p l = l := by
  induction l with
  | nil => rfl
  | cons y ys ih =>
    simp only [removeFirstBy, h y (List.mem_cons_self y ys)]
    simp only [Bool.false_eq_true, if_false, List.cons.injEq, true_and]
    exact ih (fun e he => h e (List.mem_cons_of_mem y he))

/-! ## Lemmas about the association-list dict -/

theorem hasKey_iff_mem_keys [DecidableEq κ] (bs : List (κ × β)) (k : κ) :
    hasKey bs k = true ↔ k ∈ bs.map Prod.fst := by
  induction bs with
  | nil => simp [hasKey]
  | cons p t ih =>
    simp only [hasKey, List.map_cons, List.mem_cons]
    by_cases hk : p.1 = k
    · simp [hk]
    · rw [if_neg hk, ih]
      constructor
      · exact Or.inr
      · rintro (hh | hh)
        · exact absurd hh.symm hk
        · exact hh

theorem hasKey_updAssoc_self [DecidableEq κ] (k : κ) (f : β → β) (dflt : β)
    (bs : List (κ × β)) : hasKey (updAssoc k f dflt bs) k = true := by
  induction bs with
  | nil => simp [updAssoc, hasKey]
  | cons p t ih =>
    rcases p with ⟨k', b⟩
    simp only [updAssoc]
    split
    · rename_i hk
      simp [hasKey, hk]
    · rename_i hk
      simp only [hasKey, if_neg hk]
      exact ih

theorem bucketAt_updAssoc_self [DecidableEq κ] (k : κ) (f : List γ → List γ)
    (bs : List (κ × List γ)) :
    bucketAt (updAssoc k f [] bs) k = f (bucketAt bs k) := by
  induction bs with
  | nil => simp [updAssoc, bucketAt]
  | cons p t ih =>
    rcases p with ⟨k', b⟩
    simp only [updAssoc]
    split
    · rename_i hk
      simp [bucketAt, hk]
    · rename_i hk
      simp only [bucketAt, if_neg hk]
      exact ih

theorem bucketAt_updAssoc_ne [DecidableEq κ] (k k' : κ) (f : List γ → List γ)
    (dflt : List γ) (bs : List (κ × List γ)) (hne : k ≠ k') :
    bucketAt (updAssoc k f dflt bs) k' = bucketAt bs k' := by
  induction bs with
  | nil => simp [updAssoc, bucketAt, hne]
  | cons p t ih =>
    rcases p with ⟨k0, b⟩
    simp only [updAssoc]
    split
    · rename_i hk
      subst hk
      simp only [bucketAt, if_neg hne]
    · simp only [bucketAt]
      by_cases hk0 : k0 = k'
      · simp [hk0]
      · rw [if_neg hk0, if_neg hk0]
        exact ih

theorem keys_updAssoc [DecidableEq κ] (k : κ) (f : β → β) (dflt : β)
    (bs : List (κ × β)) :
    (updAssoc k f dflt bs).map Prod.fst =
      if hasKey bs k then bs.map Prod.fst else bs.map Prod.fst ++ [k] := by
  induction bs with
  | nil => simp [updAssoc, hasKey]
  | cons p t ih =>
    rcases p with ⟨k', b⟩
    simp only [updAssoc]
    split
    · rename_i hk
      simp [hasKey, hk]
    · rename_i hk
      simp only [hasKey, if_neg hk, List.map_cons, ih]
      split <;> simp

theorem mem_updAssoc [DecidableEq κ] (k : κ) (f : β → β) (dflt : β)
    (bs : List (κ × β)) (q : κ × β) (hq : q ∈ updAssoc k f dflt bs) :
    q ∈ bs ∨ ∃ b0, q = (k, f b0) := by
  induction bs with
  | nil => simp only [updAssoc, List.mem_singleton] at hq; exact Or.inr ⟨dflt, hq⟩
  | cons p t ih =>
    rcases p with ⟨k', b⟩
    simp only [updAssoc] at hq
    split at hq
    · rename_i hk
      subst hk
      rcases List.mem_cons.1 hq with rfl | hq
      · exact Or.inr ⟨b, rfl⟩
      · exact Or.inl (List.mem_cons_of_mem _ hq)
    · rcases List.mem_cons.1 hq with rfl | hq
      · exact Or.inl (List.mem_cons_self _ _)
      · rcases ih hq with h | h
        · exact Or.inl (List.mem_cons_of_mem _ h)
        · exact Or.inr h

theorem updAssoc_eq_self [DecidableEq κ] (k : κ) (f : List γ → List γ)
    (dflt : List γ) (bs : List (κ × List γ)) (hk : hasKey bs k = true)
    (hf : f (bucketAt bs k) = bucketAt bs k) : updAssoc k f dflt bs = bs := by
  induction bs with
  | nil => simp [hasKey] at hk
  | cons p t ih =>
    rcases p with ⟨k', b⟩
    simp only [updAssoc]
    split
    · rename_i hkk
      simp only [bucketAt, if_pos hkk] at hf
      rw [hf]
    · rename_i hkk
      simp only [hasKey, if_neg hkk] at hk
      simp only [bucketAt, if_neg hkk] at hf
      rw [ih hk hf]

theorem bucketAt_of_mem_of_keys_nodup [DecidableEq κ] (bs : List (κ × List γ))
    (p : κ × List γ) (hp : p ∈ bs) (hnd : (bs.map Prod.fst).Nodup) :
    bucketAt bs p.1 = p.2 := by
  induction bs with
  | nil => simp at hp
  | cons q t ih =>
    simp only [List.map_cons, List.nodup_cons] at hnd
    rcases List.mem_cons.1 hp with rfl | hp
    · simp [bucketAt]
    · have hne : q.1 ≠ p.1 := by
        intro hh
        exact hnd.1 (hh ▸ List.mem_map_of_mem Prod.fst hp)
      simp only [bucketAt, if_neg hne]
      exact ih hp hnd.2

theorem hasKey_append [DecidableEq κ] (bs bs' : List (κ × β)) (k : κ) :
    hasKey (bs ++ bs') k = (hasKey bs k || hasKey bs' k) := by
  induction bs with
  | nil => simp [hasKey]
  | cons p t ih =>
    simp only [List.cons_append, hasKey]
    split
    · simp
    · exact ih

/-- The loop of `CompositeLookup.lookup`, characterized in closed form: the
first member giving a certain code wins outright; otherwise the running
maximum of all codes is returned with no payload. -/
theorem compositeLookupLoop_characterization (ps : Params) :
    ∀ (idxs : List MemberLookup) (r : Nat),
      compositeLookupLoop ps r idxs =
        match idxs.find? (fun m =>
            decide ((m ps).1 = VALUE_FOUND) || decide ((m ps).1 = VALUE_DOES_NOT_EXIST)) with
        | some m => m ps
        | Option.none => (idxs.foldl (fun acc m => max acc (m ps).1) r, Option.none)
  | [], r => rfl
  | m :: ms, r => by
    simp only [compositeLookupLoop, List.find?_cons, List.foldl_cons]
    by_cases hc : (m ps).1 = VALUE_FOUND ∨ (m ps).1 = VALUE_DOES_NOT_EXIST
    · rw [if_pos hc]
      have hb : (decide ((m ps).1 = VALUE_FOUND) ||
          decide ((m ps).1 = VALUE_DOES_NOT_EXIST)) = true := by
        rcases hc with h | h <;> simp [h]
      rw [hb]
    · rw [if_neg hc]
      push_neg at hc
      have hb : (decide ((m ps).1 = VALUE_FOUND) ||
          decide ((m ps).1 = VALUE_DOES_NOT_EXIST)) = false := by
        simp [hc.1, hc.2]
      rw [hb]
      exact compositeLookupLoop_characterization ps ms (max r (m ps).1)

/-- C6 (confirmed): `CompositeLookup.lookup` returns the result of the first
member index (in configured order) whose own lookup answers `VALUE_FOUND`
or `VALUE_DOES_NOT_EXIST` — later members play no part in that value — and,
when no member gives such a certain code, it returns the maximum (`Python
max` over the numeric ordinal, here only `LOOKUP_NOT_SUPPORTED < VALUE_UNKNOWN`
can occur) of the codes seen, with no payload. -/
theorem c6_composite_lookup_first_certain_wins (idxs : List MemberLookup) (ps : Params) :
    CompositeLookup.lookup idxs ps =
      match idxs.find? (fun m =>
          decide ((m ps).1 = VALUE_FOUND) || decide ((m ps).1 = VALUE_DOES_NOT_EXIST)) with
      | some m => m ps
      | Option.none =>
        (idxs.foldl (fun acc m => max acc (m ps).1) LOOKUP_NOT_SUPPORTED, Option.none) :=
  compositeLookupLoop_characterization ps idxs LOOKUP_NOT_SUPPORTED

/-- C7 (confirmed): when the Change Log is non-empty, `clear(force=False)`
fails loudly (`util.validate_equals(0, len(self.change_log))`) and the
failed call leaves the Change Log exactly as it was — the un-flushed
mutations are not discarded. -/
theorem c7_clear_unforced_fails_and_preserves_change_log
    (s : InProcessWriteBackCache) (hne : s.change_log ≠ []) :
    (s.clear false).2 = Except.error "validate_equals 0 len change_log"
      ∧ (s.clear false).1.change_log = s.change_log := by
  have hlen : ChangeLog.len s.change_log ≠ 0 := by
    simpa [ChangeLog.len, List.length_eq_zero] using hne
  constructor
  · simp [InProcessWriteBackCache.clear, hlen]
  · simp [InProcessWriteBackCache.clear, hlen]

/-- Witness for C7 at a concrete cache whose log holds one save for pk 1. -/
theorem c7_clear_unforced_fails_and_preserves_change_log_witness :
    ((⟨[], [], [(Value.int 1, [⟨false, 0, 1⟩])], 1, 0, 1, []⟩ :
        InProcessWriteBackCache).clear false).2
      = Except.error "validate_equals 0 len change_log"
  ∧ ((⟨[], [], [(Value.int 1, [⟨false, 0, 1⟩])], 1, 0, 1, []⟩ :
        InProcessWriteBackCache).clear false).1.change_log
      = [(Value.int 1, [⟨false, 0, 1⟩])] :=
  c7_clear_unforced_fails_and_preserves_change_log
    ⟨[], [], [(Value.int 1, [⟨false, 0, 1⟩])], 1, 0, 1, []⟩ (by decide)

/-- C5 counterexample: on the list-bucket index, deleting a record that was
never added succeeds silently when other records share its key.  The index
holds only record 0 (pk 1) under key `("x"=7)`; record 1 (pk 2, never
added) has the same key; `delete` returns successfully and removes
nothing, instead of failing with an integrity error. -/
theorem c5_counterexample_delete_of_never_added_record_succeeds :
    (DefaultListLookup.delete
        [⟨Value.int 1, [("a", Value.int 7)]⟩, ⟨Value.int 2, [("a", Value.int 7)]⟩]
        ⟨["a"], fun _ => 0, fun _ => false, [([Value.int 7], [0])]⟩ 1).map
      DefaultListLookup.buckets = Except.ok [([Value.int 7], [0])] := by rfl

/-- C5 (amended): deleting a record whose key bucket does not exist fails
with the integrity error (`util.validate(key in self._index, ...)`) on
both index kinds; when the bucket exists but contains no record-equal
element, the list-bucket index's (`DefaultListLookup`) `delete` returns
successfully leaving the index unchanged (it silently removes nothing),
while the sorted-set index's (`ListLookup`) `delete` does fail
(`KeyError`) in that case. -/
theorem c5_amended_delete_integrity (h : Heap) (rid : Nat)
    (d : DefaultListLookup) (l : ListLookup) :
    (hasKey d.buckets (d.key h rid) = false →
      d.delete h rid = Except.error "ERROR 934923432")
  ∧ (hasKey d.buckets (d.key h rid) = true →
      (∀ e ∈ bucketAt d.buckets (d.key h rid), recEq h e rid = false) →
      d.delete h rid = Except.ok d)
  ∧ (hasKey l.buckets (l.key h rid) = false →
      l.delete h rid = Except.error "ERROR 934923432")
  ∧ (hasKey l.buckets (l.key h rid) = true →
      (∀ e ∈ bucketAt l.buckets (l.key h rid), recEq h e rid = false) →
      l.delete h rid = Except.error "KeyError") := by
  refine ⟨fun hmiss => ?_, fun hk hnone => ?_, fun hmiss => ?_, fun hk hnone => ?_⟩
  · simp only [DefaultListLookup.delete, hmiss, Bool.false_eq_true, if_false]
  · have hfix : (fun b => b.filter (fun e => ! recEq h e rid))
        (bucketAt d.buckets (d.key h rid)) = bucketAt d.buckets (d.key h rid) := by
      refine List.filter_eq_self.2 (fun e he => ?_)
      simp [hnone e he]
    simp only [DefaultListLookup.delete, hk, if_true]
    rw [updAssoc_eq_self _ _ _ _ hk hfix]
  · simp only [ListLookup.delete, hmiss, Bool.false_eq_true, if_false]
  · have hany : (bucketAt l.buckets (l.key h rid)).any (fun e => recEq h e rid) = false :=
      List.any_eq_false.2 (fun e he => by simp [hnone e he])
    simp only [ListLookup.delete, hk, if_true, hany, Bool.false_eq_true, if_false]

/-- Witness for C5's amended theorem: all four branches exercised on the
concrete two-record heap of the counterexample (record 1, pk 2, was never
added; its key is `7` on both index kinds). -/
theorem c5_amended_delete_integrity_witness :
    DefaultListLookup.delete
        [⟨Value.int 1, [("a", Value.int 7)]⟩, ⟨Value.int 2, [("a", Value.int 7)]⟩]
        ⟨["a"], fun _ => 0, fun _ => false, []⟩ 1 = Except.error "ERROR 934923432"
  ∧ DefaultListLookup.delete
        [⟨Value.int 1, [("a", Value.int 7)]⟩, ⟨Value.int 2, [("a", Value.int 7)]⟩]
        ⟨["a"], fun _ => 0, fun _ => false, [([Value.int 7], [0])]⟩ 1
      = Except.ok ⟨["a"], fun _ => 0, fun _ => false, [([Value.int 7], [0])]⟩
  ∧ ListLookup.delete
        [⟨Value.int 1, [("a", Value.int 7)]⟩, ⟨Value.int 2, [("a", Value.int 7)]⟩]
        ⟨["a"], fun _ => 0, fun _ => false, []⟩ 1 = Except.error "ERROR 934923432"
  ∧ ListLookup.delete
        [⟨Value.int 1, [("a", Value.int 7)]⟩, ⟨Value.int 2, [("a", Value.int 7)]⟩]
        ⟨["a"], fun _ => 0, fun _ => false, [([Value.int 7], [0])]⟩ 1
      = Except.error "KeyError" :=
  ⟨(c5_amended_delete_integrity
      [⟨Value.int 1, [("a", Value.int 7)]⟩, ⟨Value.int 2, [("a", Value.int 7)]⟩] 1
      ⟨["a"], fun _ => 0, fun _ => false, []⟩
      ⟨["a"], fun _ => 0, fun _ => false, [([Value.int 7], [0])]⟩).1 (by decide),
   (c5_amended_delete_integrity
      [⟨Value.int 1, [("a", Value.int 7)]⟩, ⟨Value.int 2, [("a", Value.int 7)]⟩] 1
      ⟨["a"], fun _ => 0, fun _ => false, [([Value.int 7], [0])]⟩
      ⟨["a"], fun _ => 0, fun _ => false, [([Value.int 7], [0])]⟩).2.1 (by decide)
     (by decide),
   (c5_amended_delete_integrity
      [⟨Value.int 1, [("a", Value.int 7)]⟩, ⟨Value.int 2, [("a", Value.int 7)]⟩] 1
      ⟨["a"], fun _ => 0, fun _ => false, []⟩
      ⟨["a"], fun _ => 0, fun _ => false, []⟩).2.2.1 (by decide),
   (c5_amended_delete_integrity
      [⟨Value.int 1, [("a", Value.int 7)]⟩, ⟨Value.int 2, [("a", Value.int 7)]⟩] 1
      ⟨["a"], fun _ => 0, fun _ => false, []⟩
      ⟨["a"], fun _ => 0, fun _ => false, [([Value.int 7], [0])]⟩).2.2.2 (by decide)
     (by decide)⟩

theorem delete_ok_of_hasKey (h : Heap) (d : DefaultListLookup) (rid : Nat)
    (hk : hasKey d.buckets (d.key h rid) = true) :
    ∃ d2, d.delete h rid = Except.ok d2 :=
  let bs := updAssoc (d.key h rid) (fun b => b.filter (fun e => ! recEq h e rid)) [] d.buckets
  ⟨{ d with buckets := bs }, by simp only [DefaultListLookup.delete, hk, if_true]⟩

/-- C10 (confirmed): on the default list-bucket index, a lookup whose
parameter names exactly match the key attributes but whose key has no
bucket is not read-only — the `defaultdict` access inserts an empty bucket
for the key, the index's `__len__` grows by one, and a subsequent `delete`
of a record with that key no longer hits the missing-bucket integrity
error (it succeeds, removing nothing). -/
theorem c10_lookup_missing_key_inserts_empty_bucket
    (d : DefaultListLookup) (ps : Params) (k : List Value) (h : Heap) (rid : Nat)
    (hlen : ps.length = d.key_attributes.length)
    (hk : getParams ps d.key_attributes = some k)
    (hmiss : hasKey d.buckets k = false)
    (hkey : d.key h rid = k) :
    ((d.lookup ps).2).buckets = d.buckets ++ [(k, [])]
  ∧ ((d.lookup ps).2).len = d.len + 1
  ∧ ∃ d2, ((d.lookup ps).2).delete h rid = Except.ok d2 := by
  have hs1 : (d.lookup ps).2 =
      { d with buckets := d.buckets ++ [(k, [])] } := by
    simp only [DefaultListLookup.lookup, hlen, ne_eq, not_true_eq_false, if_false, hk,
      hmiss, Bool.false_eq_true, if_false]
    simp [apply_ite Prod.snd]
  refine ⟨by rw [hs1], by rw [hs1]; simp [DefaultListLookup.len], ?_⟩
  rw [hs1]
  apply delete_ok_of_hasKey
  have hkk : DefaultListLookup.key { d with buckets := d.buckets ++ [(k, [])] } h rid
      = d.key h rid := rfl
  rw [hkk, hkey, hasKey_append]
  simp [hasKey]

/-- Witness for C10: index on `["a"]` with no buckets; lookup for `a=7`
inserts the empty bucket and the delete of record 0 (whose key is `7`)
then succeeds. -/
theorem c10_lookup_missing_key_inserts_empty_bucket_witness :
    (((⟨["a"], fun _ => 0, fun _ => false, []⟩ : DefaultListLookup).lookup
        [("a", Value.int 7)]).2).buckets = [] ++ [([Value.int 7], [])]
  ∧ (((⟨["a"], fun _ => 0, fun _ => false, []⟩ : DefaultListLookup).lookup
        [("a", Value.int 7)]).2).len = DefaultListLookup.len ⟨["a"], fun _ => 0, fun _ => false, []⟩ + 1
  ∧ ∃ d2, (((⟨["a"], fun _ => 0, fun _ => false, []⟩ : DefaultListLookup).lookup
        [("a", Value.int 7)]).2).delete [⟨Value.int 1, [("a", Value.int 7)]⟩] 0 = Except.ok d2 :=
  c10_lookup_missing_key_inserts_empty_bucket
    ⟨["a"], fun _ => 0, fun _ => false, []⟩ [("a", Value.int 7)] [Value.int 7]
    [⟨Value.int 1, [("a", Value.int 7)]⟩] 0 (by decide) (by decide) (by decide) (by decide)

theorem lookupParam_eq_of_mem (ps : Params) (v : String → Value) (k : String)
    (hk : k ∈ ps.map Prod.fst) (hv : ∀ p ∈ ps, p.2 = v p.1) :
    lookupParam ps k = some (v k) := by
  induction ps with
  | nil => simp at hk
  | cons p t ih =>
    simp only [lookupParam]
    by_cases hp : p.1 = k
    · rw [if_pos hp, hv p (List.mem_cons_self p t), hp]
    · rw [if_neg hp]
      have hk' : k ∈ t.map Prod.fst := by
        rcases List.mem_cons.1 (by simpa only [List.map_cons] using hk) with hh | hh
        · exact absurd hh.symm hp
        · exact hh
      exact ih hk' (fun q hq => hv q (List.mem_cons_of_mem p hq))

theorem getParams_all (ps : Params) (v : String → Value) (ks : List String)
    (hall : ∀ k ∈ ks, lookupParam ps k = some (v k)) :
    getParams ps ks = some (ks.map v) := by
  induction ks with
  | nil => rfl
  | cons k t ih =>
    simp only [getParams, hall k (List.mem_cons_self k t),
      ih (fun q hq => hall q (List.mem_cons_of_mem k hq)), List.map_cons]

theorem listLookup_lookup_found (l : ListLookup) (ps : Params) (k : List Value)
    (hlen : ps.length = l.key_attributes.length)
    (hgp : getParams ps l.key_attributes = some k)
    (hk : hasKey l.buckets k = true) (hne : bucketAt l.buckets k ≠ []) :
    l.lookup ps = (VALUE_FOUND, some (bucketAt l.buckets k)) := by
  have hcond : ¬ (ps.length ≠ l.key_attributes.length) := by simp [hlen]
  simp only [ListLookup.lookup, if_neg hcond, hgp]
  rw [if_pos ⟨hk, hne⟩]

theorem defaultListLookup_lookup_found (d : DefaultListLookup) (ps : Params) (k : List Value)
    (hlen : ps.length = d.key_attributes.length)
    (hgp : getParams ps d.key_attributes = some k)
    (hk : hasKey d.buckets k = true) (hne : bucketAt d.buckets k ≠ []) :
    (d.lookup ps).1 = (VALUE_FOUND, some (bucketAt d.buckets k)) := by
  have hcond : ¬ (ps.length ≠ d.key_attributes.length) := by simp [hlen]
  simp only [DefaultListLookup.lookup, if_neg hcond, hgp, hk, if_true]
  rw [if_pos hne]

/-- C9 (confirmed): a record added to an index and looked up by a parameter
mapping whose names exactly match the configured key attributes (as a set)
and whose values equal the record's attribute values is found: `lookup`
returns `VALUE_FOUND` with a payload containing the record.  Shown for
both the sorted-set index (`ListLookup`) and the default list-bucket index
(`DefaultListLookup`). -/
theorem c9_add_then_exact_lookup_found (h : Heap) (rid : Nat) (ps : Params)
    (l : ListLookup) (d : DefaultListLookup)
    (hl : (ps.map Prod.fst).Perm l.key_attributes)
    (hd : (ps.map Prod.fst).Perm d.key_attributes)
    (hv : ∀ p ∈ ps, p.2 = (recAt h rid).getattr p.1) :
    (((l.add h rid).lookup ps).1 = VALUE_FOUND
      ∧ ∃ b, ((l.add h rid).lookup ps).2 = some b ∧ rid ∈ b)
  ∧ (((d.add h rid).lookup ps).1.1 = VALUE_FOUND
      ∧ ∃ b, ((d.add h rid).lookup ps).1.2 = some b ∧ rid ∈ b) := by
  constructor
  · have hlen : ps.length = l.key_attributes.length := by
      simpa using hl.length_eq
    have hgp : getParams ps l.key_attributes
        = some (l.key_attributes.map (fun a => (recAt h rid).getattr a)) :=
      getParams_all ps _ _ (fun a ha =>
        lookupParam_eq_of_mem ps _ a (hl.mem_iff.2 ha) hv)
    have hkey : (l.add h rid).key h rid = l.key h rid := rfl
    have hbuckets : (l.add h rid).buckets
        = updAssoc (l.key h rid)
            (fun b => insortBy (fun r => l.sort_key (recAt h r)) rid
              (removeFirstBy (fun e => recEq h e rid) b)) [] l.buckets := rfl
    have hk : hasKey (l.add h rid).buckets (l.key h rid) = true := by
      rw [hbuckets]; exact hasKey_updAssoc_self _ _ _ _
    have hbk : bucketAt (l.add h rid).buckets (l.key h rid)
        = insortBy (fun r => l.sort_key (recAt h r)) rid
            (removeFirstBy (fun e => recEq h e rid) (bucketAt l.buckets (l.key h rid))) := by
      rw [hbuckets]; exact bucketAt_updAssoc_self _ _ _
    have hmem : rid ∈ bucketAt (l.add h rid).buckets (l.key h rid) := by
      rw [hbk]; exact (mem_insortBy _ rid rid _).2 (Or.inl rfl)
    have hne : bucketAt (l.add h rid).buckets (l.key h rid) ≠ [] := by
      rw [hbk]; exact insortBy_ne_nil _ _ _
    have hfound := listLookup_lookup_found (l.add h rid) ps (l.key h rid)
      hlen hgp hk hne
    rw [hfound]
    exact ⟨rfl, bucketAt (l.add h rid).buckets (l.key h rid), rfl, hmem⟩
  · have hlen : ps.length = d.key_attributes.length := by
      simpa using hd.length_eq
    have hgp : getParams ps d.key_attributes
        = some (d.key_attributes.map (fun a => (recAt h rid).getattr a)) :=
      getParams_all ps _ _ (fun a ha =>
        lookupParam_eq_of_mem ps _ a (hd.mem_iff.2 ha) hv)
    have hbuckets : (d.add h rid).buckets
        = updAssoc (d.key h rid)
            (fun b => ssortBy (fun r => d.sort_key (recAt h r))
              (removeFirstBy (fun e => recEq h e rid) b ++ [rid])) [] d.buckets := rfl
    have hk : hasKey (d.add h rid).buckets (d.key h rid) = true := by
      rw [hbuckets]; exact hasKey_updAssoc_self _ _ _ _
    have hbk : bucketAt (d.add h rid).buckets (d.key h rid)
        = ssortBy (fun r => d.sort_key (recAt h r))
            (removeFirstBy (fun e => recEq h e rid) (bucketAt d.buckets (d.key h rid))
              ++ [rid]) := by
      rw [hbuckets]; exact bucketAt_updAssoc_self _ _ _
    have hmem : rid ∈ bucketAt (d.add h rid).buckets (d.key h rid) := by
      rw [hbk, mem_ssortBy]
      exact List.mem_append_right _ (List.mem_singleton.2 rfl)
    have hne : bucketAt (d.add h rid).buckets (d.key h rid) ≠ [] :=
      List.ne_nil_of_mem hmem
    have hfound := defaultListLookup_lookup_found (d.add h rid) ps (d.key h rid)
      hlen hgp hk hne
    rw [hfound]
    exact ⟨rfl, bucketAt (d.add h rid).buckets (d.key h rid), rfl, hmem⟩

/-- Witness for C9: a record with `a=7, b=8` added to two-attribute indexes
and looked up with the parameters in the opposite order. -/
theorem c9_add_then_exact_lookup_found_witness :
    (((ListLookup.add [⟨Value.int 1, [("a", Value.int 7), ("b", Value.int 8)]⟩]
        ⟨["a", "b"], fun _ => 0, fun _ => false, []⟩ 0).lookup
        [("b", Value.int 8), ("a", Value.int 7)]).1 = VALUE_FOUND
      ∧ ∃ b, ((ListLookup.add [⟨Value.int 1, [("a", Value.int 7), ("b", Value.int 8)]⟩]
        ⟨["a", "b"], fun _ => 0, fun _ => false, []⟩ 0).lookup
        [("b", Value.int 8), ("a", Value.int 7)]).2 = some b ∧ 0 ∈ b)
  ∧ (((DefaultListLookup.add [⟨Value.int 1, [("a", Value.int 7), ("b", Value.int 8)]⟩]
        ⟨["a", "b"], fun _ => 0, fun _ => false, []⟩ 0).lookup
        [("b", Value.int 8), ("a", Value.int 7)]).1.1 = VALUE_FOUND
      ∧ ∃ b, ((DefaultListLookup.add [⟨Value.int 1, [("a", Value.int 7), ("b", Value.int 8)]⟩]
        ⟨["a", "b"], fun _ => 0, fun _ => false, []⟩ 0).lookup
        [("b", Value.int 8), ("a", Value.int 7)]).1.2 = some b ∧ 0 ∈ b) :=
  c9_add_then_exact_lookup_found
    [⟨Value.int 1, [("a", Value.int 7), ("b", Value.int 8)]⟩] 0
    [("b", Value.int 8), ("a", Value.int 7)]
    ⟨["a", "b"], fun _ => 0, fun _ => false, []⟩
    ⟨["a", "b"], fun _ => 0, fun _ => false, []⟩
    (by decide) (by decide) (by decide)

/-! ## Lemmas about building a `ChangeLog` by successive `add` calls -/

theorem bucketAt_foldl_changeLogAdd (h : Heap) :
    ∀ (cs : List ChangeRec) (acc : ChangeLogState) (k : Value),
      bucketAt (cs.foldl (ChangeLog.add h) acc) k
        = (cs.filter (fun c => decide ((recAt h c.rid).pk = k))).foldl
            (fun b c => insortBy (fun x => (x.change_counter : Int)) c
              (removeFirstBy (fun e => decide (e = c)) b))
            (bucketAt acc k)
  | [], _, _ => rfl
  | c :: cs, acc, k => by
    simp only [List.foldl_cons, List.filter_cons]
    by_cases hk : (recAt h c.rid).pk = k
    · rw [decide_eq_true hk, if_pos rfl, List.foldl_cons]
      rw [bucketAt_foldl_changeLogAdd h cs (ChangeLog.add h acc c) k]
      congr 1
      simp only [ChangeLog.add]
      rw [← hk, bucketAt_updAssoc_self]
    · rw [decide_eq_false hk]
      simp only [Bool.false_eq_true, if_false]
      rw [bucketAt_foldl_changeLogAdd h cs (ChangeLog.add h acc c) k]
      congr 1
      simp only [ChangeLog.add]
      rw [bucketAt_updAssoc_ne _ _ _ _ _ hk]

theorem keys_foldl_changeLogAdd (h : Heap) :
    ∀ (cs : List ChangeRec) (acc : ChangeLogState),
      (cs.foldl (ChangeLog.add h) acc).map Prod.fst
        = (cs.map (fun c => (recAt h c.rid).pk)).foldl
            (fun ks v => if v ∈ ks then ks else ks ++ [v]) (acc.map Prod.fst)
  | [], _ => rfl
  | c :: cs, acc => by
    simp only [List.foldl_cons, List.map_cons, List.foldl_cons]
    rw [keys_foldl_changeLogAdd h cs (ChangeLog.add h acc c)]
    congr 1
    simp only [ChangeLog.add]
    rw [keys_updAssoc]
    by_cases hmem : (recAt h c.rid).pk ∈ acc.map Prod.fst
    · rw [if_pos ((hasKey_iff_mem_keys acc _).2 hmem), if_pos hmem]
    · rw [if_neg (fun hh => hmem ((hasKey_iff_mem_keys acc _).1 hh)), if_neg hmem]

theorem buckets_nonempty_foldl_changeLogAdd (h : Heap) :
    ∀ (cs : List ChangeRec) (acc : ChangeLogState),
      (∀ p ∈ acc, p.2 ≠ []) → ∀ p ∈ cs.foldl (ChangeLog.add h) acc, p.2 ≠ []
  | [], _, hacc => hacc
  | c :: cs, acc, hacc => by
    simp only [List.foldl_cons]
    refine buckets_nonempty_foldl_changeLogAdd h cs _ ?_
    intro p hp
    simp only [ChangeLog.add] at hp
    rcases mem_updAssoc _ _ _ _ p hp with hmem | ⟨b0, rfl⟩
    · exact hacc p hmem
    · exact insortBy_ne_nil _ _ _

theorem length_filterMap_getLast? (log : ChangeLogState)
    (hne : ∀ p ∈ log, p.2 ≠ []) :
    (log.filterMap (fun p => p.2.getLast?)).length = log.length := by
  induction log with
  | nil => rfl
  | cons p t ih =>
    simp only [List.filterMap_cons]
    cases hg : p.2.getLast? with
    | none =>
      exact absurd (List.getLast?_eq_none_iff.1 hg) (hne p (List.mem_cons_self p t))
    | some a =>
      simp only [List.length_cons]
      rw [ih (fun q hq => hne q (List.mem_cons_of_mem p hq))]

theorem foldl_insort_remove_eq_plain :
    ∀ (fs : List ChangeRec) (b : List ChangeRec),
      (∀ c ∈ fs, ∀ e ∈ b, e.change_counter ≠ c.change_counter) →
      (fs.map ChangeRec.change_counter).Nodup →
      fs.foldl (fun b c => insortBy (fun x => (x.change_counter : Int)) c
          (removeFirstBy (fun e => decide (e = c)) b)) b
        = fs.foldl (fun b c => insortBy (fun x => (x.change_counter : Int)) c b) b
  | [], _, _, _ => rfl
  | c :: fs, b, hsep, hnd => by
    simp only [List.foldl_cons]
    have hno : removeFirstBy (fun e => decide (e = c)) b = b := by
      apply removeFirstBy_eq_self
      intro e he
      have hne : e ≠ c := by
        intro hh
        exact hsep c (List.mem_cons_self c fs) e he (by rw [hh])
      simp [hne]
    rw [hno]
    apply foldl_insort_remove_eq_plain fs (insortBy _ c b)
    · intro c' hc' e he
      rcases (mem_insortBy _ c e b).1 he with rfl | he
      · simp only [List.map_cons, List.nodup_cons] at hnd
        intro hh
        exact hnd.1 (hh ▸ List.mem_map_of_mem ChangeRec.change_counter hc')
      · exact hsep c' (List.mem_cons_of_mem _ hc') e he
    · simp only [List.map_cons, List.nodup_cons] at hnd
      exact hnd.2

/-- The bucket a Change Log built by `add` calls holds for key `k`: the
changes whose record's pk is `k`, sorted by counter. -/
theorem bucketAt_buildLog (h : Heap) (cs : List ChangeRec)
    (hnd : (cs.map ChangeRec.change_counter).Nodup) (k : Value) :
    bucketAt (cs.foldl (ChangeLog.add h) []) k
      = ssortBy (fun x => (x.change_counter : Int))
          (cs.filter (fun c => decide ((recAt h c.rid).pk = k))) := by
  rw [bucketAt_foldl_changeLogAdd]
  have hb : bucketAt ([] : ChangeLogState) k = [] := rfl
  rw [hb]
  have hsub : ((cs.filter (fun c => decide ((recAt h c.rid).pk = k))).map
      ChangeRec.change_counter).Nodup :=
    ((List.filter_sublist cs).map ChangeRec.change_counter).nodup hnd
  rw [foldl_insort_remove_eq_plain _ _ (fun c _ e he => absurd he (List.not_mem_nil e)) hsub]
  rfl

theorem length_foldl_insdedup (l : List Value) :
    ∀ (ks : List Value), ks.Nodup →
      (l.foldl (fun ks v => if v ∈ ks then ks else ks ++ [v]) ks).Nodup
      ∧ (l.foldl (fun ks v => if v ∈ ks then ks else ks ++ [v]) ks).length
          = (ks.toFinset ∪ l.toFinset).card := by
  induction l with
  | nil =>
    intro ks hnd
    refine ⟨hnd, ?_⟩
    simp [List.card_toFinset, List.dedup_eq_self.2 hnd]
  | cons v t ih =>
    intro ks hnd
    simp only [List.foldl_cons]
    by_cases hv : v ∈ ks
    · rw [if_pos hv]
      obtain ⟨h1, h2⟩ := ih ks hnd
      refine ⟨h1, ?_⟩
      rw [h2]
      have hset : ks.toFinset ∪ (v :: t).toFinset = ks.toFinset ∪ t.toFinset := by
        ext x
        simp only [Finset.mem_union, List.mem_toFinset, List.mem_cons]
        constructor
        · rintro (hh | hh | hh)
          · exact Or.inl hh
          · exact Or.inl (hh ▸ hv)
          · exact Or.inr hh
        · rintro (hh | hh)
          · exact Or.inl hh
          · exact Or.inr (Or.inr hh)
      rw [hset]
    · rw [if_neg hv]
      have hnd' : (ks ++ [v]).Nodup := by
        rw [List.nodup_append]
        refine ⟨hnd, List.nodup_singleton v, ?_⟩
        intro x hx hx'
        rw [List.mem_singleton] at hx'
        exact hv (hx' ▸ hx)
      obtain ⟨h1, h2⟩ := ih (ks ++ [v]) hnd'
      refine ⟨h1, ?_⟩
      rw [h2]
      have hset : (ks ++ [v]).toFinset ∪ t.toFinset = ks.toFinset ∪ (v :: t).toFinset := by
        ext x
        simp only [List.toFinset_append, Finset.mem_union, List.mem_toFinset,
          List.mem_singleton, List.mem_cons]
        tauto
      rw [hset]

theorem changeLog_add_keeps_nonempty (h : Heap) (log : ChangeLogState) (c : ChangeRec)
    (v : Value) (hv : bucketAt log v ≠ [] ∨ v = (recAt h c.rid).pk) :
    bucketAt (ChangeLog.add h log c) v ≠ [] := by
  by_cases hkey : (recAt h c.rid).pk = v
  · subst hkey
    simp only [ChangeLog.add]
    rw [bucketAt_updAssoc_self]
    exact insortBy_ne_nil _ _ _
  · rcases hv with hv | hv
    · simp only [ChangeLog.add]
      rw [bucketAt_updAssoc_ne _ _ _ _ _ hkey]
      exact hv
    · exact absurd hv.symm hkey

/-- One unfolding step of the instrumented run. -/
theorem runG_cons (cacheable : Record → Bool) (s0 : InProcessWriteBackCache)
    (g0 : List Value) (op : CacheOp) (ops : List CacheOp) :
    InProcessWriteBackCache.runG cacheable (s0, g0) (op :: ops) =
      match s0.step cacheable op with
      | Option.none => Option.none
      | some s' =>
        InProcessWriteBackCache.runG cacheable
          (s', match op with
               | CacheOp.flush => []
               | CacheOp.add rid =>
                 if cacheable (recAt s0.heap rid) then g0 ++ [(recAt s'.heap rid).pk] else g0
               | CacheOp.del rid =>
                 if cacheable (recAt s0.heap rid) then g0 ++ [(recAt s0.heap rid).pk] else g0)
          ops := rfl

/-- Every pk key recorded in the ghost list since the last flush has a
non-empty Change-Log bucket after any successful instrumented run. -/
theorem runG_preserves_logged_buckets (cacheable : Record → Bool) :
    ∀ (ops : List CacheOp) (sc : InProcessWriteBackCache) (gh : List Value)
      (s : InProcessWriteBackCache) (g : List Value),
      (∀ v ∈ gh, bucketAt sc.change_log v ≠ []) →
      InProcessWriteBackCache.runG cacheable (sc, gh) ops = some (s, g) →
      ∀ v ∈ g, bucketAt s.change_log v ≠ []
  | [], sc, gh, s, g, hinv, hrun => by
    have hpair : (sc, gh) = (s, g) := Option.some.inj hrun
    have h1 : sc = s := congrArg Prod.fst hpair
    have h2 : gh = g := congrArg Prod.snd hpair
    subst h1
    subst h2
    exact hinv
  | CacheOp.flush :: ops, sc, gh, s, g, hinv, hrun => by
    have hrun' : InProcessWriteBackCache.runG cacheable
        (sc.flush_changes_to_database, []) ops = some (s, g) := hrun
    exact runG_preserves_logged_buckets cacheable ops _ _ s g
      (fun v hv => absurd hv (List.not_mem_nil v)) hrun'
  | CacheOp.add rid :: ops, sc, gh, s, g, hinv, hrun => by
    by_cases hlt : rid < sc.heap.length
    · have hstep : sc.step cacheable (CacheOp.add rid) = some (sc.add cacheable rid) := by
        simp only [InProcessWriteBackCache.step, if_pos hlt]
      rw [runG_cons, hstep] at hrun
      have hrun' : InProcessWriteBackCache.runG cacheable
          (sc.add cacheable rid,
            if cacheable (recAt sc.heap rid) then
              gh ++ [(recAt (sc.add cacheable rid).heap rid).pk] else gh)
          ops = some (s, g) := hrun
      by_cases hc : cacheable (recAt sc.heap rid) = true
      · rw [if_pos hc] at hrun'
        have hlog : (sc.add cacheable rid).change_log
            = ChangeLog.add (sc.add cacheable rid).heap sc.change_log
                ⟨false, rid, sc.counter + 1⟩ := by
          simp only [InProcessWriteBackCache.add, hc, if_true]
        refine runG_preserves_logged_buckets cacheable ops _ _ s g ?_ hrun'
        intro v hv
        rw [hlog]
        rcases List.mem_append.1 hv with hv | hv
        · exact changeLog_add_keeps_nonempty _ _ _ _ (Or.inl (hinv v hv))
        · rw [List.mem_singleton] at hv
          subst hv
          exact changeLog_add_keeps_nonempty _ _ _ _ (Or.inr rfl)
      · rw [if_neg hc] at hrun'
        have hlog : (sc.add cacheable rid).change_log = sc.change_log := by
          simp only [InProcessWriteBackCache.add, hc, Bool.false_eq_true, if_false]
        refine runG_preserves_logged_buckets cacheable ops _ _ s g ?_ hrun'
        intro v hv
        rw [hlog]
        exact hinv v hv
    · have hstep : sc.step cacheable (CacheOp.add rid) = Option.none := by
        simp only [InProcessWriteBackCache.step, if_neg hlt]
      rw [runG_cons, hstep] at hrun
      simp at hrun
  | CacheOp.del rid :: ops, sc, gh, s, g, hinv, hrun => by
    by_cases hlt : rid < sc.heap.length
    · cases hdel : sc.delete cacheable rid with
      | error e =>
        have hstep : sc.step cacheable (CacheOp.del rid) = Option.none := by
          simp only [InProcessWriteBackCache.step, if_pos hlt, hdel]
        rw [runG_cons, hstep] at hrun
        simp at hrun
      | ok s' =>
        have hstep : sc.step cacheable (CacheOp.del rid) = some s' := by
          simp only [InProcessWriteBackCache.step, if_pos hlt, hdel]
        rw [runG_cons, hstep] at hrun
        have hrun' : InProcessWriteBackCache.runG cacheable
            (s', if cacheable (recAt sc.heap rid) then
              gh ++ [(recAt sc.heap rid).pk] else gh) ops = some (s, g) := hrun
        by_cases hc : cacheable (recAt sc.heap rid) = true
        · rw [if_pos hc] at hrun'
          have hlog : s'.change_log
              = ChangeLog.add sc.heap sc.change_log ⟨true, rid, sc.counter + 1⟩ := by
            simp only [InProcessWriteBackCache.delete, hc, if_true] at hdel
            cases hda : CompositeLookup.deleteAll sc.heap sc.indexes rid with
            | error e => rw [hda] at hdel; simp at hdel
            | ok idxs =>
              rw [hda] at hdel
              simp only [Except.ok.injEq] at hdel
              rw [← hdel]
          refine runG_preserves_logged_buckets cacheable ops _ _ s g ?_ hrun'
          intro v hv
          rw [hlog]
          rcases List.mem_append.1 hv with hv | hv
          · exact changeLog_add_keeps_nonempty _ _ _ _ (Or.inl (hinv v hv))
          · rw [List.mem_singleton] at hv
            subst hv
            exact changeLog_add_keeps_nonempty _ _ _ _ (Or.inr rfl)
        · rw [if_neg hc] at hrun'
          have hlog : s'.change_log = sc.change_log := by
            simp only [InProcessWriteBackCache.delete, hc, Bool.false_eq_true, if_false,
              Except.ok.injEq] at hdel
            rw [← hdel]
          refine runG_preserves_logged_buckets cacheable ops _ _ s g ?_ hrun'
          intro v hv
          rw [hlog]
          exact hinv v hv
    · have hstep : sc.step cacheable (CacheOp.del rid) = Option.none := by
        simp only [InProcessWriteBackCache.step, if_neg hlt]
      rw [runG_cons, hstep] at hrun
      simp at hrun

/-- After a successful instrumented run that ends with a flush, the Change
Log is empty. -/
theorem runG_last_flush (cacheable : Record → Bool) :
    ∀ (ops : List CacheOp) (p : InProcessWriteBackCache × List Value)
      (s : InProcessWriteBackCache) (g : List Value),
      InProcessWriteBackCache.runG cacheable p ops = some (s, g) →
      ops.getLast? = some CacheOp.flush → s.change_log = []
  | [], p, s, g, hrun, hlast => by simp at hlast
  | op :: ops, ⟨sc, gh⟩, s, g, hrun, hlast => by
    rw [runG_cons] at hrun
    cases hstep : sc.step cacheable op with
    | none => rw [hstep] at hrun; simp at hrun
    | some s' =>
      rw [hstep] at hrun
      cases ops with
      | nil =>
        have hop : op = CacheOp.flush := by simpa using hlast
        subst hop
        have hs' : s' = sc.flush_changes_to_database :=
          (Option.some.inj hstep).symm
        have hpair : (s', ([] : List Value)) = (s, g) := Option.some.inj hrun
        have h1 : s' = s := congrArg Prod.fst hpair
        rw [← h1, hs']
        rfl
      | cons o2 rest =>
        rw [List.getLast?_cons_cons] at hlast
        exact runG_last_flush cacheable (o2 :: rest) _ s g hrun hlast

/-- C8 (amended): in every reachable state, every identity under which a
cacheable mutation (add or delete) was routed into memory since the last
flush still has a non-empty Change-Log bucket; and the Change Log is empty
immediately after a successful flush.  (The original claim — that *every*
record present in a configured index has a Change-Log entry — fails after
a flush, which clears the log but deliberately leaves the indexes
populated; see the counterexample.) -/
theorem c8_amended_change_log_tracks_mutations_since_flush
    (cacheable : Record → Bool) (s0 : InProcessWriteBackCache) (ops : List CacheOp)
    (s : InProcessWriteBackCache) (g : List Value)
    (hrun : InProcessWriteBackCache.runG cacheable (s0, []) ops = some (s, g)) :
    (∀ v ∈ g, bucketAt s.change_log v ≠ [])
  ∧ (ops.getLast? = some CacheOp.flush → s.change_log = []) :=
  ⟨runG_preserves_logged_buckets cacheable ops s0 [] s g
      (fun v hv => absurd hv (List.not_mem_nil v)) hrun,
   fun hlast => runG_last_flush cacheable ops (s0, []) s g hrun hlast⟩

/-- Witness for C8's amended theorem: one cacheable add of a fresh record;
its placeholder identity has a non-empty Change-Log bucket. -/
theorem c8_amended_change_log_tracks_mutations_since_flush_witness :
    (∀ v ∈ [Value.transient 0],
      bucketAt ([(Value.transient 0, [⟨false, 0, 1⟩])] : ChangeLogState) v ≠ [])
  ∧ ([CacheOp.add 0].getLast? = some CacheOp.flush →
      ([(Value.transient 0, [⟨false, 0, 1⟩])] : ChangeLogState) = []) :=
  c8_amended_change_log_tracks_mutations_since_flush (fun _ => true)
    ⟨[⟨Value.none, []⟩], [], [], 0, 0, 1, []⟩ [CacheOp.add 0]
    ⟨[⟨Value.transient 0, []⟩], [], [(Value.transient 0, [⟨false, 0, 1⟩])], 1, 1, 1, []⟩
    [Value.transient 0] rfl

/-- C3 (confirmed): for a Change Log built by adding N save/delete change
records (with the distinct counters the `Sequence` guarantees) touching K
distinct identities, `apply_all` applies exactly K change records — its
applied list (`apply_all_order`, which `apply_all` then applies one by one)
has one entry per distinct identity (K = the card of the set of pk keys),
is in strictly ascending counter order, and each applied record is the
change with the highest counter among all changes of its identity. -/
theorem c3_apply_all_latest_per_identity (h : Heap) (cs : List ChangeRec)
    (hnd : (cs.map ChangeRec.change_counter).Nodup) :
    (ChangeLog.apply_all_order (cs.foldl (ChangeLog.add h) [])).length
        = ((cs.map (fun c => (recAt h c.rid).pk)).toFinset).card
  ∧ (ChangeLog.apply_all_order (cs.foldl (ChangeLog.add h) [])).Pairwise
        (fun a b => a.change_counter < b.change_counter)
  ∧ (∀ a ∈ ChangeLog.apply_all_order (cs.foldl (ChangeLog.add h) []),
        a ∈ cs ∧ ∀ c ∈ cs, (recAt h c.rid).pk = (recAt h a.rid).pk →
          c.change_counter ≤ a.change_counter) := by
  set log := cs.foldl (ChangeLog.add h) [] with hlogdef
  have hkeys : log.map Prod.fst = (cs.map (fun c => (recAt h c.rid).pk)).foldl
      (fun ks v => if v ∈ ks then ks else ks ++ [v]) [] := by
    rw [hlogdef]
    simpa using keys_foldl_changeLogAdd h cs []
  have hdedup := length_foldl_insdedup (cs.map (fun c => (recAt h c.rid).pk)) []
    List.nodup_nil
  have hkeysnd : (log.map Prod.fst).Nodup := by rw [hkeys]; exact hdedup.1
  have hkeyslen : (log.map Prod.fst).length
      = ((cs.map (fun c => (recAt h c.rid).pk)).toFinset).card := by
    rw [hkeys, hdedup.2]
    simp
  have hnonempty : ∀ p ∈ log, p.2 ≠ [] := by
    rw [hlogdef]
    exact buckets_nonempty_foldl_changeLogAdd h cs []
      (fun p hp => absurd hp (List.not_mem_nil p))
  have hbucket : ∀ p ∈ log, p.2 = ssortBy (fun x => (x.change_counter : Int))
      (cs.filter (fun c => decide ((recAt h c.rid).pk = p.1))) := by
    intro p hp
    rw [← bucketAt_of_mem_of_keys_nodup log p hp hkeysnd, hlogdef,
      bucketAt_buildLog h cs hnd p.1]
  have hmem_bucket : ∀ p ∈ log, ∀ a ∈ p.2, a ∈ cs ∧ (recAt h a.rid).pk = p.1 := by
    intro p hp a ha
    rw [hbucket p hp, mem_ssortBy] at ha
    rcases List.mem_filter.1 ha with ⟨hacs, hpk⟩
    exact ⟨hacs, of_decide_eq_true hpk⟩
  have hlast_mem : ∀ (p : Value × List ChangeRec) (a : ChangeRec),
      p.2.getLast? = some a → a ∈ p.2 := by
    intro p a hg
    rcases List.mem_getLast?_eq_getLast (Option.mem_def.2 hg) with ⟨hne, rfl⟩
    exact List.getLast_mem hne
  have hinj : ∀ a ∈ cs, ∀ b ∈ cs, a.change_counter = b.change_counter → a = b :=
    fun a ha b hb hab => List.inj_on_of_nodup_map hnd ha hb hab
  refine ⟨?_, ?_, ?_⟩
  · have h1 : (ChangeLog.apply_all_order log).length
        = (log.filterMap (fun p => p.2.getLast?)).length :=
      (ssortBy_perm _ _).length_eq
    rw [h1, length_filterMap_getLast? log hnonempty, ← List.length_map log Prod.fst,
      hkeyslen]
  · have hsortInt : (ChangeLog.apply_all_order log).Pairwise
        (fun a b => (a.change_counter : Int) ≤ (b.change_counter : Int)) :=
      ssortBy_sorted _ _
    have hpw_ne : log.Pairwise (fun p q => p.1 ≠ q.1) := List.pairwise_map.1 hkeysnd
    have hpw_log : log.Pairwise (fun p q => p ∈ log ∧ q ∈ log ∧ p.1 ≠ q.1) :=
      List.Pairwise.and_mem.1 hpw_ne
    have hlasts_ne : (log.filterMap (fun p => p.2.getLast?)).Pairwise
        (fun a b => a.change_counter ≠ b.change_counter) := by
      refine List.Pairwise.filterMap _ ?_ hpw_log
      intro p q hpq a ha b hb
      have ha2 : a ∈ p.2 := hlast_mem p a (Option.mem_def.1 ha)
      have hb2 : b ∈ q.2 := hlast_mem q b (Option.mem_def.1 hb)
      obtain ⟨hpql, hpqr, hne⟩ := hpq
      obtain ⟨hacs, hapk⟩ := hmem_bucket p hpql a ha2
      obtain ⟨hbcs, hbpk⟩ := hmem_bucket q hpqr b hb2
      intro hcnt
      apply hne
      rw [← hapk, ← hbpk, hinj a hacs b hbcs hcnt]
    have happ_ne : (ChangeLog.apply_all_order log).Pairwise
        (fun a b => a.change_counter ≠ b.change_counter) :=
      (List.Perm.pairwise_iff (fun hxy => Ne.symm hxy) (ssortBy_perm _ _)).2 hlasts_ne
    have hand := hsortInt.and happ_ne
    refine hand.imp ?_
    intro a b hab
    obtain ⟨h1, h2⟩ := hab
    omega
  · intro a ha
    have ha' : a ∈ ssortBy (fun x => (x.change_counter : Int))
        (log.filterMap (fun p => p.2.getLast?)) := ha
    rw [mem_ssortBy] at ha'
    rcases List.mem_filterMap.1 ha' with ⟨p, hp, hg⟩
    have ha2 : a ∈ p.2 := hlast_mem p a hg
    obtain ⟨hacs, hapk⟩ := hmem_bucket p hp a ha2
    refine ⟨hacs, fun c hc hcpk => ?_⟩
    have hc2 : c ∈ p.2 := by
      rw [hbucket p hp, mem_ssortBy, List.mem_filter]
      exact ⟨hc, decide_eq_true (by rw [hcpk, hapk])⟩
    have hsorted : p.2.Pairwise
        (fun x y => (x.change_counter : Int) ≤ (y.change_counter : Int)) := by
      rw [hbucket p hp]
      exact ssortBy_sorted _ _
    have hle := sorted_getLast?_max _ p.2 a hsorted hg c hc2
    exact_mod_cast hle

/-- Witness for C3: three changes over two records (pks 1 and 2), counters
1, 2, 3; the identity of record 0 is touched twice, so exactly two changes
are applied. -/
theorem c3_apply_all_latest_per_identity_witness :
    (ChangeLog.apply_all_order
        ([⟨false, 0, 1⟩, ⟨false, 1, 2⟩, ⟨true, 0, 3⟩].foldl
          (ChangeLog.add [⟨Value.int 1, []⟩, ⟨Value.int 2, []⟩]) [])).length
        = ((([⟨false, 0, 1⟩, ⟨false, 1, 2⟩, ⟨true, 0, 3⟩] : List ChangeRec).map
            (fun c => (recAt [⟨Value.int 1, []⟩, ⟨Value.int 2, []⟩] c.rid).pk)).toFinset).card
  ∧ (ChangeLog.apply_all_order
        ([⟨false, 0, 1⟩, ⟨false, 1, 2⟩, ⟨true, 0, 3⟩].foldl
          (ChangeLog.add [⟨Value.int 1, []⟩, ⟨Value.int 2, []⟩]) [])).Pairwise
        (fun a b => a.change_counter < b.change_counter)
  ∧ (∀ a ∈ ChangeLog.apply_all_order
        ([⟨false, 0, 1⟩, ⟨false, 1, 2⟩, ⟨true, 0, 3⟩].foldl
          (ChangeLog.add [⟨Value.int 1, []⟩, ⟨Value.int 2, []⟩]) []),
        a ∈ ([⟨false, 0, 1⟩, ⟨false, 1, 2⟩, ⟨true, 0, 3⟩] : List ChangeRec)
        ∧ ∀ c ∈ ([⟨false, 0, 1⟩, ⟨false, 1, 2⟩, ⟨true, 0, 3⟩] : List ChangeRec),
            (recAt [⟨Value.int 1, []⟩, ⟨Value.int 2, []⟩] c.rid).pk
              = (recAt [⟨Value.int 1, []⟩, ⟨Value.int 2, []⟩] a.rid).pk →
            c.change_counter ≤ a.change_counter) :=
  c3_apply_all_latest_per_identity [⟨Value.int 1, []⟩, ⟨Value.int 2, []⟩]
    [⟨false, 0, 1⟩, ⟨false, 1, 2⟩, ⟨true, 0, 3⟩] (by decide)

/-- C1 (code bug): `DeleteOp.apply_change` on a record holding a real
backing-store identity (`pk = 5`) calls `self.obj.save()` — a *save*
reaches the backing store, not the deletion the spec describes.  The same
save-effect is what `apply_all` performs for a logged delete at flush time
and what the direct (non-cacheable) delete path performs. -/
theorem c1_deleteop_apply_change_saves_instead_of_deleting :
    applyChange ⟨true, 0, 1⟩ [⟨Value.int 5, []⟩] 10
      = ([⟨Value.int 5, []⟩], 10, [StoreEffect.save 0])
  ∧ (InProcessWriteBackCache.run (fun _ => true) ⟨[⟨Value.int 5, []⟩], [], [], 0, 0, 1, []⟩
      [CacheOp.del 0, CacheOp.flush]).map InProcessWriteBackCache.effects
      = some [StoreEffect.save 0]
  ∧ (InProcessWriteBackCache.run (fun _ => false) ⟨[⟨Value.int 5, []⟩], [], [], 0, 0, 1, []⟩
      [CacheOp.del 0]).map InProcessWriteBackCache.effects
      = some [StoreEffect.save 0] :=
  ⟨by decide, by decide, by decide⟩

/-- C2 (code bug): a record created without identity (pk `None`, so the
cache assigns an `UniqueTransientValue` placeholder on `add`), deleted via
the cache, then flushed: `apply_all` resolves the latest change to the
`DeleteOp`, whose `pk is None` test sees the placeholder — not `None` — so
`self.obj.save()` runs and the backing store *is* touched (with a save),
where the spec requires a complete no-op. -/
theorem c2_create_add_delete_flush_still_hits_store :
    (InProcessWriteBackCache.run (fun _ => true) ⟨[⟨Value.none, []⟩], [], [], 0, 0, 1, []⟩
      [CacheOp.add 0, CacheOp.del 0, CacheOp.flush]).map
        (fun s => (s.effects, s.change_log)) = some ([StoreEffect.save 0], []) := by
  decide

/-- C4 (code bug): `bulk_add` on an empty list-bucket index keeps both of
two record-equal items (records 0 and 1 share pk 1 and key `a=7`), while
adding them one at a time leaves only the second — the two paths are
distinguishable by `lookup` (payload `[0, 1]` vs `[1]`), contradicting the
required equivalence and the index's documented no-duplicates behaviour. -/
theorem c4_bulk_add_fast_path_keeps_duplicates :
    ((DefaultListLookup.bulk_add
        [⟨Value.int 1, [("a", Value.int 7)]⟩, ⟨Value.int 1, [("a", Value.int 7)]⟩]
        ⟨["a"], fun _ => 0, fun _ => false, []⟩ [0, 1]).lookup [("a", Value.int 7)]).1
      = (VALUE_FOUND, some [0, 1])
  ∧ ((DefaultListLookup.add
        [⟨Value.int 1, [("a", Value.int 7)]⟩, ⟨Value.int 1, [("a", Value.int 7)]⟩]
        (DefaultListLookup.add
          [⟨Value.int 1, [("a", Value.int 7)]⟩, ⟨Value.int 1, [("a", Value.int 7)]⟩]
          ⟨["a"], fun _ => 0, fun _ => false, []⟩ 0) 1).lookup [("a", Value.int 7)]).1
      = (VALUE_FOUND, some [1]) :=
  ⟨by decide, by decide⟩

/-- C8 counterexample: the claimed invariant fails in the reachable state
after `add` then `flush`: record 0 is still present in the configured
index (flush does not clear indexes) while the Change Log is empty, so the
record has no Change-Log entry at any identity. -/
theorem c8_counterexample_indexed_record_with_empty_change_log :
    (InProcessWriteBackCache.run (fun _ => true)
      ⟨[⟨Value.none, [("a", Value.int 7)]⟩],
        [⟨["a"], fun _ => 0, fun _ => false, []⟩], [], 0, 0, 1, []⟩
      [CacheOp.add 0, CacheOp.flush]).map
        (fun s => (s.change_log, s.indexes.map DefaultListLookup.buckets))
      = some ([], [[([Value.int 7], [0])]]) := by
  rfl
